import Mathlib

/-!
Verification of the `ffmpeg` package of the `transcoder` repository.

The Go sources (`ffmpeg.go`, `config.go`) are shallowly embedded below:
pure helpers become Lean functions on `String` / `List Char`, the control
flow of `Start` becomes a function over explicit outcome oracles for the
external effects (probe, launch, wait), and the two goroutines of the
progress branch become a small step relation on an explicit channel state.
Machine strings are modelled as Lean `String`s (the sources only ever
treat them as opaque byte/char sequences), and the float arithmetic of the
progress percentage is modelled over `ℚ` (division by zero yields `0`).
-/

/-! ## Argument building (`Start`, ffmpeg.go lines 64-92) -/

/-- Loop body of `Start` over `t.output` (ffmpeg.go lines 77-91): for every
output at position `index`, append option-set `index`'s tokens — except at
the last output when there are strictly more option-sets than outputs, where
all remaining option-sets (`index` up to the end) are appended — and then
the output locator itself.  `outputLength` is `len(t.output)` and `options`
is the list of already-serialized option-token-sequences (`arguments`). -/
def buildLoop (options : List (List String)) (outputLength : Nat) :
    Nat → List String → List String
  | _, [] => []
  | index, out :: rest =>
    (if index = outputLength - 1 ∧ outputLength < options.length then
      (options.drop index).flatten
    else
      options.getD index []) ++ [out] ++ buildLoop options outputLength (index + 1) rest

/-- Argument assembly of `Start` (ffmpeg.go lines 64-92): `-i <input>`,
the global option tokens, then either the single output (when there is
exactly one output and no option-sets) or the per-output blocks produced
by `buildLoop`. -/
def buildArgs (input : String) (globalOptions : List String)
    (output : List String) (options : List (List String)) : List String :=
  if output.length = 1 ∧ options.length = 0 then
    (["-i", input] ++ globalOptions) ++ [output.getD 0 ""]
  else
    (["-i", input] ++ globalOptions) ++ buildLoop options output.length 0 output

/-- Spec-side description of the per-output blocks for the outputs strictly
before the last one: option-set `index`'s tokens immediately followed by
output `index`.  Used to state claim C1's general flush property. -/
def specBlocks (options : List (List String)) : Nat → List String → List String
  | _, [] => []
  | index, out :: rest =>
    options.getD index [] ++ [out] ++ specBlocks options (index + 1) rest

/-! ## Validation (`validate`, ffmpeg.go lines 201-229) -/

/-- Configuration validation of `validate` (ffmpeg.go lines 201-229),
returning the first error message, if any, in source order. -/
def validate (ffmpegBinPath input : String) (output : List String)
    (options : List (List String)) : Option String :=
  if ffmpegBinPath = "" then
    some "ffmpeg binary path not found"
  else if input = "" then
    some "missing input option"
  else if output.length = 0 then
    some "missing output option"
  else if output.length > options.length ∧ output.length ≠ 1 then
    some "number of options and output files does not match"
  else
    (output.findIdx? (fun o => o == "")).map
      (fun index => "output at index " ++ toString index ++ " is an empty string")

lemma getLastD_default_irrel {α : Type} (l : List α) (hne : l ≠ []) (d₁ d₂ : α) :
    l.getLastD d₁ = l.getLastD d₂ := by
  cases l with
  | nil => exact absurd rfl hne
  | cons a t => rw [List.getLastD_cons, List.getLastD_cons]

lemma buildLoop_flush (options : List (List String)) (n : Nat) :
    ∀ (outs : List String) (index : Nat), outs ≠ [] → index + outs.length = n →
      n < options.length →
      buildLoop options n index outs =
        specBlocks options index outs.dropLast ++
          (options.drop (n - 1)).flatten ++ [outs.getLastD ""] := by
  intro outs
  induction outs with
  | nil => intro index hne _ _; exact absurd rfl hne
  | cons out rest ih =>
    intro index hne hlen hlt
    cases rest with
    | nil =>
      simp only [List.length_cons, List.length_nil] at hlen
      have hidx : index = n - 1 := by omega
      have hstep : buildLoop options n index [out] =
          (if index = n - 1 ∧ n < options.length then (options.drop index).flatten
            else options.getD index []) ++ [out] ++ buildLoop options n (index + 1) [] := rfl
      have hnil : buildLoop options n (index + 1) ([] : List String) = [] := rfl
      rw [hstep, hnil, if_pos (And.intro hidx hlt), hidx]
      simp [specBlocks]
    | cons out2 rest2 =>
      have hne2 : (out2 :: rest2 : List String) ≠ [] := by simp
      have hlen2 : (index + 1) + (out2 :: rest2).length = n := by
        simp only [List.length_cons] at hlen ⊢
        omega
      have hcond : ¬(index = n - 1 ∧ n < options.length) := by
        intro hc
        simp only [List.length_cons] at hlen
        omega
      have hrec := ih (index + 1) hne2 hlen2 hlt
      have hstep : buildLoop options n index (out :: out2 :: rest2) =
          (if index = n - 1 ∧ n < options.length then (options.drop index).flatten
            else options.getD index []) ++ [out] ++
            buildLoop options n (index + 1) (out2 :: rest2) := rfl
      have hspec : specBlocks options index (out :: (out2 :: rest2).dropLast) =
          options.getD index [] ++ [out] ++
            specBlocks options (index + 1) (out2 :: rest2).dropLast := rfl
      rw [hstep, if_neg hcond, hrec, List.dropLast_cons₂, hspec]
      simp [List.getLastD_cons, List.append_assoc]

/-- C1: with exactly 2 outputs and 3 option-sets, the built argument list is
`-i input`, the global tokens, option-set 0, output 0, then option-sets 1
and 2 in order, then output 1; in general, whenever the number of outputs is
strictly less than the number of option-sets, every output before the last
receives exactly its own option-set, and the last output is preceded by the
concatenation of all remaining option-sets. -/
theorem buildArgs_flush_spec :
    (∀ (inp : String) (g : List String) (o1 o2 : String) (a b c : List String),
      buildArgs inp g [o1, o2] [a, b, c] =
        ["-i", inp] ++ g ++ a ++ [o1] ++ b ++ c ++ [o2]) ∧
    (∀ (inp : String) (g : List String) (outs : List String)
        (opts : List (List String)), outs ≠ [] → outs.length < opts.length →
      buildArgs inp g outs opts =
        ["-i", inp] ++ g ++ specBlocks opts 0 outs.dropLast ++
          (opts.drop (outs.length - 1)).flatten ++ [outs.getLastD ""]) := by
  constructor
  · intro inp g o1 o2 a b c
    simp [buildArgs, buildLoop, List.getD]
  · intro inp g outs opts hne hlt
    have hzero : (0 : Nat) + outs.length = outs.length := by omega
    have hcond : ¬(outs.length = 1 ∧ opts.length = 0) := by
      intro hc
      omega
    rw [buildArgs, if_neg hcond, buildLoop_flush opts outs.length outs 0 hne hzero hlt]
    simp [List.append_assoc]

/-- Witness for C1: the general flush clause applied to the concrete request
with outputs `["x.mp4", "y.mp4"]` and option-sets `[["-a"], ["-b"], ["-c"]]`. -/
theorem buildArgs_flush_spec_witness :
    (["x.mp4", "y.mp4"] : List String) ≠ [] ∧
      (["x.mp4", "y.mp4"] : List String).length < ([["-a"], ["-b"], ["-c"]] : List (List String)).length ∧
      buildArgs "in.mp4" ["-g"] ["x.mp4", "y.mp4"] [["-a"], ["-b"], ["-c"]] =
        ["-i", "in.mp4"] ++ ["-g"] ++
          specBlocks [["-a"], ["-b"], ["-c"]] 0 (["x.mp4", "y.mp4"] : List String).dropLast ++
          ((([["-a"], ["-b"], ["-c"]] : List (List String)).drop
            ((["x.mp4", "y.mp4"] : List String).length - 1)).flatten) ++
          [(["x.mp4", "y.mp4"] : List String).getLastD ""] :=
  ⟨by decide, by decide,
    buildArgs_flush_spec.2 "in.mp4" ["-g"] ["x.mp4", "y.mp4"] [["-a"], ["-b"], ["-c"]]
      (by decide) (by decide)⟩

/-! ## Start control flow (`Start`, ffmpeg.go lines 42-148) -/

/-- Error taxonomy of `Start` and its callees: validation errors
(`validate`), probe errors (`GetMetadata`), errors of the configured
metadata callback, launch errors (`cmd.Start`) and execution errors
(`cmd.Wait`). -/
inductive StartError where
  | config (msg : String)
  | probe (msg : String)
  | metaCallback (msg : String)
  | launch (msg : String)
  | execution (msg : String)
deriving DecidableEq

/-- Observable state, at the moment `Start` returns, of the progress channel
`out` created at ffmpeg.go line 125: whether it has already been closed, and
how many concurrently running tasks still hold it and may send on it. -/
structure StreamDesc where
  closedAtReturn : Bool
  sendersAtReturn : Nat
deriving DecidableEq

instance {ε α : Type} [DecidableEq ε] [DecidableEq α] : DecidableEq (Except ε α)
  | Except.error a, Except.error b =>
    match decEq a b with
    | isTrue h => isTrue (by rw [h])
    | isFalse h => isFalse (fun hh => h (Except.error.inj hh))
  | Except.error _, Except.ok _ => isFalse (fun hh => Except.noConfusion hh)
  | Except.ok _, Except.error _ => isFalse (fun hh => Except.noConfusion hh)
  | Except.ok a, Except.ok b =>
    match decEq a b with
    | isTrue h => isTrue (by rw [h])
    | isFalse h => isFalse (fun hh => h (Except.ok.inj hh))

/-- Observable outcome of one `Start` call: the returned value and which
external steps were reached before returning. -/
structure StartOutcome where
  result : Except StartError StreamDesc
  probeRan : Bool
  spawned : Bool
  waitedBeforeReturn : Bool
deriving DecidableEq

/-- Control-flow skeleton of `Start` (ffmpeg.go lines 42-148).  The external
effects are supplied as outcome oracles: `probeErr` is the error of the
`GetMetadata` probe (`none` = success), `metaCallbackErr` of the configured
`OnMetadata` callback, `launchErr` of `cmd.Start`, and `waitErr` of
`cmd.Wait` (`some` = non-zero exit).  In the progress branch (progress
enabled and not verbose) the call returns right after spawning, leaving the
channel open with the scanner goroutine and the waiter goroutine as its two
potential senders; otherwise the call waits for the process synchronously
and, on success, returns the untouched channel: never closed, no senders. -/
def startModel (ffmpegBinPath input : String) (output : List String)
    (options : List (List String)) (progressEnabled verbose : Bool)
    (probeErr metaCallbackErr launchErr waitErr : Option String) : StartOutcome :=
  match validate ffmpegBinPath input output options with
  | some m => ⟨Except.error (StartError.config m), false, false, false⟩
  | none =>
    match probeErr with
    | some m => ⟨Except.error (StartError.probe m), true, false, false⟩
    | none =>
      match metaCallbackErr with
      | some m => ⟨Except.error (StartError.metaCallback m), true, false, false⟩
      | none =>
        match launchErr with
        | some m => ⟨Except.error (StartError.launch m), true, false, false⟩
        | none =>
          if progressEnabled && !verbose then
            ⟨Except.ok ⟨false, 2⟩, true, true, false⟩
          else
            match waitErr with
            | some m => ⟨Except.error (StartError.execution m), true, true, true⟩
            | none => ⟨Except.ok ⟨false, 0⟩, true, true, true⟩

lemma validate_isSome_of_mismatch (ffmpegBinPath input : String)
    (output : List String) (options : List (List String))
    (hgt : output.length > options.length) (hne : output.length ≠ 1) :
    (validate ffmpegBinPath input output options).isSome = true := by
  unfold validate
  by_cases h1 : ffmpegBinPath = ""
  · simp [h1]
  · by_cases h2 : input = ""
    · simp [h1, h2]
    · by_cases h3 : output.length = 0
      · simp [h1, h2, h3]
      · simp [h1, h2, h3, And.intro hgt hne]

/-- C3: whenever a request has strictly more outputs than option-sets and
not exactly one output, `Start` returns a configuration error coming from
`validate`, the metadata probe never runs, and no process is spawned —
whatever the probe, callback, launch and wait oracles would have answered. -/
theorem start_mismatch_config_error (ffmpegBinPath input : String)
    (output : List String) (options : List (List String))
    (progressEnabled verbose : Bool)
    (probeErr metaCallbackErr launchErr waitErr : Option String)
    (hgt : output.length > options.length) (hne : output.length ≠ 1) :
    (∃ m, (startModel ffmpegBinPath input output options progressEnabled verbose
        probeErr metaCallbackErr launchErr waitErr).result =
          Except.error (StartError.config m)) ∧
    (startModel ffmpegBinPath input output options progressEnabled verbose
        probeErr metaCallbackErr launchErr waitErr).probeRan = false ∧
    (startModel ffmpegBinPath input output options progressEnabled verbose
        probeErr metaCallbackErr launchErr waitErr).spawned = false := by
  have hsome := validate_isSome_of_mismatch ffmpegBinPath input output options hgt hne
  cases hval : validate ffmpegBinPath input output options with
  | none => rw [hval] at hsome; simp [Option.isSome] at hsome
  | some m =>
    refine ⟨⟨m, ?_⟩, ?_, ?_⟩ <;> simp [startModel, hval]

/-- Witness for C3: a request with two outputs and a single option-set is
rejected before probing or spawning, for arbitrary concrete oracles. -/
theorem start_mismatch_config_error_witness :
    (2 > 1 ∧ 2 ≠ 1) ∧
    ((∃ m, (startModel "ffmpeg" "in.mp4" ["a.mp4", "b.mp4"] [["-c"]] true false
        none none none none).result = Except.error (StartError.config m)) ∧
      (startModel "ffmpeg" "in.mp4" ["a.mp4", "b.mp4"] [["-c"]] true false
        none none none none).probeRan = false ∧
      (startModel "ffmpeg" "in.mp4" ["a.mp4", "b.mp4"] [["-c"]] true false
        none none none none).spawned = false) :=
  ⟨⟨by decide, by decide⟩,
    start_mismatch_config_error "ffmpeg" "in.mp4" ["a.mp4", "b.mp4"] [["-c"]] true false
      none none none none (by decide) (by decide)⟩

/-- C9 counterexample: with progress mode inactive (progress disabled) and a
successful run, `Start` returns a stream whose `closedAtReturn` flag is
`false` — the channel created at line 125 is never closed in that branch —
refuting the claim that the returned stream is an already-closed one. -/
theorem start_sync_stream_not_closed_counterexample :
    (startModel "ffmpeg" "in.mp4" ["out.mp4"] [] false false
        none none none none).result = Except.ok ⟨false, 0⟩ ∧
    ¬∃ d, (startModel "ffmpeg" "in.mp4" ["out.mp4"] [] false false
        none none none none).result = Except.ok d ∧ d.closedAtReturn = true := by
  constructor
  · decide
  · intro hd
    obtain ⟨d, hres, hclosed⟩ := hd
    have : d = (⟨false, 0⟩ : StreamDesc) := by
      have h0 : (startModel "ffmpeg" "in.mp4" ["out.mp4"] [] false false
          none none none none).result = Except.ok ⟨false, 0⟩ := by decide
      rw [h0] at hres
      cases hres
      rfl
    rw [this] at hclosed
    simp at hclosed

/-- C9 (amended): when progress mode is inactive (progress disabled or
verbose set) and validation, probe, callback and launch succeed, `Start`
waits synchronously for process exit; a non-zero exit is returned directly
as an execution error, and on success the returned stream has no senders
(no event is ever deliverable on it) but it is not closed. -/
theorem start_sync_no_events (ffmpegBinPath input : String)
    (output : List String) (options : List (List String))
    (progressEnabled verbose : Bool)
    (waitErr : Option String)
    (hmode : progressEnabled = false ∨ verbose = true)
    (hval : validate ffmpegBinPath input output options = none) :
    (startModel ffmpegBinPath input output options progressEnabled verbose
        none none none waitErr).waitedBeforeReturn = true ∧
    (∀ m, waitErr = some m →
      (startModel ffmpegBinPath input output options progressEnabled verbose
          none none none waitErr).result = Except.error (StartError.execution m)) ∧
    (waitErr = none →
      (startModel ffmpegBinPath input output options progressEnabled verbose
          none none none waitErr).result = Except.ok ⟨false, 0⟩) := by
  have hb : (progressEnabled && !verbose) = false := by
    rcases hmode with h | h <;> simp [h]
  refine ⟨?_, ?_, ?_⟩
  · cases waitErr <;> simp [startModel, hval, hb]
  · intro m hm
    subst hm
    simp [startModel, hval, hb]
  · intro hm
    subst hm
    simp [startModel, hval, hb]

/-- Witness for C9 (amended): a verbose run with a failing wait returns the
execution error directly, having waited synchronously. -/
theorem start_sync_no_events_witness :
    ((false : Bool) = false ∨ (true : Bool) = true) ∧
    validate "ffmpeg" "in.mp4" ["out.mp4"] [] = none ∧
    ((startModel "ffmpeg" "in.mp4" ["out.mp4"] [] false true
        none none none (some "exit status 1")).waitedBeforeReturn = true ∧
      (∀ m, (some "exit status 1" : Option String) = some m →
        (startModel "ffmpeg" "in.mp4" ["out.mp4"] [] false true
            none none none (some "exit status 1")).result =
          Except.error (StartError.execution m)) ∧
      ((some "exit status 1" : Option String) = none →
        (startModel "ffmpeg" "in.mp4" ["out.mp4"] [] false true
            none none none (some "exit status 1")).result = Except.ok ⟨false, 0⟩)) :=
  ⟨Or.inl rfl, by decide,
    start_sync_no_events "ffmpeg" "in.mp4" ["out.mp4"] [] false true
      (some "exit status 1") (Or.inl rfl) (by decide)⟩

/-! ## Pipe attachment (`InputPipe` / `OutputPipe`, ffmpeg.go lines 162-178) -/

/-- Mutable fields of the `Transcoder` struct touched by the fluent setters
(ffmpeg.go lines 23-34); the pipe handles are abstracted as numeric ids. -/
structure TState where
  input : String
  output : List String
  options : List (List String)
  inputPipeReader : Option Nat
  outputPipeReader : Option Nat
  inputPipeWriter : Option Nat
  outputPipeWriter : Option Nat
deriving DecidableEq

/-- Setter `InputPipe` (ffmpeg.go lines 162-169): stores the writer/reader
pair only when no input path is set (`len(t.input) == 0`). -/
def InputPipe (t : TState) (w r : Nat) : TState :=
  if t.input.length = 0 then
    { t with inputPipeWriter := some w, inputPipeReader := some r }
  else t

/-- Setter `OutputPipe` (ffmpeg.go lines 171-178): stores the writer/reader
pair only when no output is set (`len(t.output) == 0`). -/
def OutputPipe (t : TState) (w r : Nat) : TState :=
  if t.output.length = 0 then
    { t with outputPipeWriter := some w, outputPipeReader := some r }
  else t

/-- C10: with a non-empty input path set, `InputPipe` returns the state
unchanged in every field; with at least one output set, `OutputPipe` does
too; and only with no input path (respectively no output) are the writer
and reader stored, all other fields untouched. -/
theorem pipe_setters_frame (t : TState) (w r : Nat) :
    (t.input ≠ "" → InputPipe t w r = t) ∧
    (t.input = "" →
      InputPipe t w r = { t with inputPipeWriter := some w, inputPipeReader := some r }) ∧
    (t.output ≠ [] → OutputPipe t w r = t) ∧
    (t.output = [] →
      OutputPipe t w r = { t with outputPipeWriter := some w, outputPipeReader := some r }) := by
  refine ⟨?_, ?_, ?_, ?_⟩
  · intro h
    have hlen : t.input.length ≠ 0 := by
      intro hz
      apply h
      cases hi : t.input with
      | mk data =>
        rw [hi] at hz
        simp [String.length] at hz
        simp [hi, hz]
    simp [InputPipe, hlen]
  · intro h
    simp [InputPipe, h]
  · intro h
    have hlen : t.output.length ≠ 0 := by
      intro hz
      exact h (List.length_eq_zero.mp hz)
    simp [OutputPipe, hlen]
  · intro h
    simp [OutputPipe, h]

/-- Witness for C10: a state with input `"in.mp4"` and one output is left
unchanged by `InputPipe` and `OutputPipe`. -/
theorem pipe_setters_frame_witness :
    ("in.mp4" ≠ "" ∧ (["out.mp4"] : List String) ≠ []) ∧
    InputPipe ⟨"in.mp4", ["out.mp4"], [], none, none, none, none⟩ 1 2 =
      ⟨"in.mp4", ["out.mp4"], [], none, none, none, none⟩ ∧
    OutputPipe ⟨"in.mp4", ["out.mp4"], [], none, none, none, none⟩ 1 2 =
      ⟨"in.mp4", ["out.mp4"], [], none, none, none, none⟩ :=
  ⟨⟨by decide, by decide⟩,
    (pipe_setters_frame ⟨"in.mp4", ["out.mp4"], [], none, none, none, none⟩ 1 2).1
      (by decide),
    (pipe_setters_frame ⟨"in.mp4", ["out.mp4"], [], none, none, none, none⟩ 1 2).2.2.1
      (by decide)⟩

/-! ## Environment merging (`Start` line 104, `GetMetadata` line 253) -/

/-- Merge of the configured environment entries with the ambient process
environment: `cmd.Env = append(t.config.Env, os.Environ()...)` — configured
entries first, ambient entries after them. -/
def mergedEnv (configured ambient : List String) : List String :=
  configured ++ ambient

/-- Key of one `KEY=VALUE` environment entry (the part before the first
`=`). -/
def envEntryKey (entry : String) : String :=
  String.mk (entry.toList.takeWhile (fun c => c != '='))

/-- Value of one `KEY=VALUE` environment entry (the part after the first
`=`). -/
def envEntryValue (entry : String) : String :=
  String.mk ((entry.toList.dropWhile (fun c => c != '=')).drop 1)

/-- Fold step resolving one environment entry against a searched key,
keeping the entry's value when the key matches. -/
def envStep (key : String) (acc : Option String) (entry : String) : Option String :=
  if envEntryKey entry = key then some (envEntryValue entry) else acc

/-- Effective value a spawned child process sees for `key` given the
environment slice `env`.  This models the documented duplicate-key rule of
the Go process launcher (`os/exec` deduplicates `cmd.Env`, keeping only the
LAST entry of each repeated key); the slice itself comes from `mergedEnv`. -/
def effectiveEnv (env : List String) (key : String) : Option String :=
  env.foldl (envStep key) none

lemma effectiveEnv_foldl_init (key : String) (ys : List String) :
    ∀ (a : Option String), List.foldl (envStep key) a ys =
      match List.foldl (envStep key) none ys with
      | some v => some v
      | none => a := by
  induction ys with
  | nil => intro a; rfl
  | cons e t ih =>
    intro a
    rw [List.foldl_cons, List.foldl_cons, ih (envStep key a e), ih (envStep key none e)]
    by_cases hk : envEntryKey e = key
    · cases hfold : List.foldl (envStep key) none t <;> simp [envStep, hk]
    · cases hfold : List.foldl (envStep key) none t <;> simp [envStep, hk]

/-- C5 counterexample: with configured entry `A=configured` and ambient
entry `A=ambient`, the merged slice lists the configured entry first and the
effective value is the ambient one — the configured variable does NOT
override the ambient variable of the same name. -/
theorem mergedEnv_ambient_wins_counterexample :
    mergedEnv ["A=configured"] ["A=ambient"] = ["A=configured", "A=ambient"] ∧
    effectiveEnv (mergedEnv ["A=configured"] ["A=ambient"]) "A" = some "ambient" ∧
    some "ambient" ≠ some "configured" := by
  refine ⟨rfl, by decide, by decide⟩

/-- C5 (amended): the environment passed to every spawned process is the
configured entries concatenated with the ambient entries, configured first;
since the launcher keeps the last entry of each duplicated key, any key
present in the ambient environment takes its ambient value, overriding a
configured entry of the same name. -/
theorem mergedEnv_ambient_precedence (configured ambient : List String)
    (key m : String) (h : effectiveEnv ambient key = some m) :
    mergedEnv configured ambient = configured ++ ambient ∧
    effectiveEnv (mergedEnv configured ambient) key = some m := by
  constructor
  · rfl
  · unfold effectiveEnv mergedEnv at *
    rw [List.foldl_append, effectiveEnv_foldl_init key ambient
      (List.foldl (envStep key) none configured), h]

/-- Witness for C5 (amended): concrete configured/ambient slices sharing the
key `A`. -/
theorem mergedEnv_ambient_precedence_witness :
    effectiveEnv ["A=ambient", "B=2"] "A" = some "ambient" ∧
    (mergedEnv ["A=configured"] ["A=ambient", "B=2"] =
        ["A=configured"] ++ ["A=ambient", "B=2"] ∧
      effectiveEnv (mergedEnv ["A=configured"] ["A=ambient", "B=2"]) "A" =
        some "ambient") :=
  ⟨by decide,
    mergedEnv_ambient_precedence ["A=configured"] ["A=ambient", "B=2"] "A" "ambient"
      (by decide)⟩

/-! ## Progress tokenization (`progress`, ffmpeg.go lines 314-337) -/

/-- Split function installed on the scanner (ffmpeg.go lines 314-331): given
the data available in the scanner's buffer, return how many bytes to advance
and the token, `none` meaning no token (request more data / stop at EOF).
The first `\n` in the window is checked BEFORE any `\r`; with neither
present, at EOF the whole remainder becomes the final token. -/
def splitFunc (data : List Char) (atEOF : Bool) : Nat × Option (List Char) :=
  if atEOF ∧ data = [] then (0, none)
  else
    match data.findIdx? (fun c => c == '\n') with
    | some i => (i + 1, some (data.take i))
    | none =>
      match data.findIdx? (fun c => c == '\r') with
      | some i => (i + 1, some (data.take i))
      | none => if atEOF then (data.length, some data) else (0, none)

/-- State of the `bufio.Scanner` driving `splitFunc`: `buf` is the
unprocessed window `s.buf[s.start:s.end]`, `bufLen` the length of the
backing buffer `s.buf` (initially 2, from `scanner.Buffer(make([]byte, 2),
...)` at ffmpeg.go lines 336-337), `startPos` is `s.start`, `chunks` the
bytes the diagnostic pipe will deliver grouped by availability at each read
(one `Read` returns at most the free buffer space from the front group, the
remainder staying available), and `eof` records that the reader returned
`io.EOF`. -/
structure ScanSt where
  buf : List Char
  bufLen : Nat
  startPos : Nat
  chunks : List (List Char)
  eof : Bool
deriving DecidableEq

/-- Buffer shift of `bufio.Scanner.Scan` before reading: when data sits
past the start of the backing buffer and the buffer is full or more than
half-skipped, the window is copied to the front (`s.start = 0`). -/
def shiftStep (st : ScanSt) : ScanSt :=
  if st.startPos > 0 ∧ (st.startPos + st.buf.length = st.bufLen ∨ st.startPos > st.bufLen / 2)
  then { st with startPos := 0 } else st

/-- Buffer growth of `bufio.Scanner.Scan`: a full backing buffer is doubled
and the window moved to its front.  The `MaxScanTokenSize` cap (64 KiB) and
its `ErrTooLong` failure are not modelled; the statements below stay well
under it. -/
def growStep (st : ScanSt) : ScanSt :=
  if st.startPos + st.buf.length = st.bufLen
  then { st with bufLen := st.bufLen * 2, startPos := 0 } else st

/-- One read of `bufio.Scanner.Scan`: with no bytes left the reader reports
end of stream; otherwise the read returns as much of the front available
group as fits in the free buffer space, the rest staying available. -/
def readStep (st : ScanSt) : ScanSt :=
  match st.chunks with
  | [] => { st with eof := true }
  | c :: rest =>
    let space := st.bufLen - (st.startPos + st.buf.length)
    let n := min space c.length
    { st with buf := st.buf ++ c.take n,
              chunks := if (c.drop n).isEmpty then rest else (c.drop n) :: rest }

/-- Read phase of `bufio.Scanner.Scan` (shift, maybe grow, then read). -/
def readMore (st : ScanSt) : ScanSt :=
  readStep (growStep (shiftStep st))

/-- Loop of repeated `bufio.Scanner.Scan` calls: while unprocessed data is
buffered (or end of stream was reached) the split function is consulted; a
token is emitted and the window advanced, or, with no token, the scan ends
at end of stream and otherwise more data is read.  The fuel only bounds the
number of iterations — each one emits a token, reads, or terminates —
and `scannerTokens` supplies enough for its stream. -/
def scanDrive : Nat → ScanSt → List (List Char)
  | 0, _ => []
  | fuel + 1, st =>
    if 0 < st.buf.length ∨ st.eof = true then
      match splitFunc st.buf st.eof with
      | (adv, some tok) =>
        tok :: scanDrive fuel { st with buf := st.buf.drop adv, startPos := st.startPos + adv }
      | (_, none) =>
        if st.eof = true then []
        else scanDrive fuel (readMore st)
    else scanDrive fuel (readMore st)

/-- Tokens the Progress Scanner's `bufio.Scanner` produces from a diagnostic
stream whose bytes become available to the pipe in the given groups. -/
def scannerTokens (chunks : List (List Char)) : List (List Char) :=
  scanDrive (4 * chunks.flatten.length + 2 * chunks.length + 8)
    { buf := [], bufLen := 2, startPos := 0, chunks := chunks, eof := false }

/-- Tokenizer written from claim C2's words: each logical line ends at the
first occurrence of `\n` or `\r`, whichever comes first; at end-of-stream a
trailing partial line is a final token. -/
def claimTokenizeFuel : Nat → List Char → List (List Char)
  | 0, _ => []
  | fuel + 1, data =>
    if data.isEmpty then []
    else
      match data.findIdx? (fun c => c == '\n' || c == '\r') with
      | some i => data.take i :: claimTokenizeFuel fuel (data.drop (i + 1))
      | none => [data]

/-- Wrapper of `claimTokenizeFuel` with sufficient fuel. -/
def claimTokenize (data : List Char) : List (List Char) :=
  claimTokenizeFuel (data.length + 1) data

/-- Accumulator form of the claim's tokenizer, used to follow the scanner's
execution: `w` holds the bytes of the line being accumulated; a terminator
ends the line, and at end-of-stream a non-empty remainder is the final
token. -/
def claimTokenizeAcc : List Char → List Char → List (List Char)
  | w, [] => if w.isEmpty then [] else [w]
  | w, b :: r =>
    if b == '\n' || b == '\r' then w :: claimTokenizeAcc [] r
    else claimTokenizeAcc (w ++ [b]) r

lemma term_false_split {c : Char} (h : (c == '\n' || c == '\r') = false) :
    (c == '\n') = false ∧ (c == '\r') = false := by
  simp at h
  constructor <;> simp [h.1, h.2]

lemma findIdx?_of_all_false {α : Type} (p : α → Bool) (l : List α)
    (h : ∀ c ∈ l, p c = false) : l.findIdx? p = none :=
  List.findIdx?_eq_none_iff.mpr h

lemma findIdx?_append_first {α : Type} (p : α → Bool) (b : α) (r : List α) :
    ∀ w : List α, (∀ c ∈ w, p c = false) → p b = true →
      (w ++ b :: r).findIdx? p = some w.length := by
  intro w
  induction w with
  | nil => intro _ hb; simp [List.findIdx?_cons, hb]
  | cons a t ih =>
    intro h hb
    have ha : p a = false := h a (by simp)
    have ht := ih (fun c hc => h c (by simp [hc])) hb
    simp [List.findIdx?_cons, List.findIdx?_succ, ha, ht]

lemma findIdx?_take_all_false {α : Type} (p : α → Bool) :
    ∀ (l : List α) (i : Nat), l.findIdx? p = some i → ∀ c ∈ l.take i, p c = false := by
  intro l
  induction l with
  | nil => intro i h; cases h
  | cons a t ih =>
    intro i h c hc
    by_cases ha : p a = true
    · simp [List.findIdx?_cons, ha] at h
      subst h
      simp at hc
    · rw [List.findIdx?_cons] at h
      simp [ha] at h
      obtain ⟨j, hj, hji⟩ := h
      subst hji
      rw [List.take_succ_cons] at hc
      rcases List.mem_cons.mp hc with hc | hc
      · subst hc; simp at ha; simp [ha]
      · exact ih j hj c hc

lemma findIdx?_lt_length {α : Type} (p : α → Bool) :
    ∀ (l : List α) (i : Nat), l.findIdx? p = some i → i < l.length := by
  intro l
  induction l with
  | nil => intro i h; cases h
  | cons a t ih =>
    intro i h
    by_cases ha : p a = true
    · simp [List.findIdx?_cons, ha] at h
      subst h
      simp
    · rw [List.findIdx?_cons] at h
      simp [ha] at h
      obtain ⟨j, hj, hji⟩ := h
      subst hji
      have := ih j hj
      simp
      omega

lemma claimTokenizeFuel_congr :
    ∀ (n : Nat) (data : List Char) (f₁ f₂ : Nat), data.length ≤ n →
      data.length < f₁ → data.length < f₂ →
      claimTokenizeFuel f₁ data = claimTokenizeFuel f₂ data := by
  intro n
  induction n with
  | zero =>
    intro data f₁ f₂ hn h1 h2
    have hdata : data = [] := List.length_eq_zero.mp (by omega)
    subst hdata
    obtain ⟨a, rfl⟩ : ∃ a, f₁ = a + 1 := ⟨f₁ - 1, by omega⟩
    obtain ⟨b, rfl⟩ : ∃ b, f₂ = b + 1 := ⟨f₂ - 1, by omega⟩
    rfl
  | succ n ih =>
    intro data f₁ f₂ hn h1 h2
    obtain ⟨a, rfl⟩ : ∃ a, f₁ = a + 1 := ⟨f₁ - 1, by omega⟩
    obtain ⟨b, rfl⟩ : ∃ b, f₂ = b + 1 := ⟨f₂ - 1, by omega⟩
    cases data with
    | nil => rfl
    | cons c rest =>
      rw [claimTokenizeFuel, claimTokenizeFuel]
      cases hf : (c :: rest).findIdx? (fun ch => ch == '\n' || ch == '\r') with
      | none => rfl
      | some i =>
        have hlt := findIdx?_lt_length _ _ _ hf
        simp only [List.isEmpty_cons, Bool.false_eq_true, if_false]
        have hlen : ((c :: rest).drop (i + 1)).length ≤ n := by
          simp only [List.length_drop, List.length_cons] at *
          omega
        have h1a : ((c :: rest).drop (i + 1)).length < a := by
          simp only [List.length_drop, List.length_cons] at *
          omega
        have h2b : ((c :: rest).drop (i + 1)).length < b := by
          simp only [List.length_drop, List.length_cons] at *
          omega
        rw [ih _ a b hlen h1a h2b]

lemma claimTokenizeAcc_spec :
    ∀ (data w : List Char), (∀ c ∈ w, (c == '\n' || c == '\r') = false) →
      claimTokenizeAcc w data = claimTokenize (w ++ data) := by
  intro data
  induction data with
  | nil =>
    intro w hw
    rw [List.append_nil]
    cases w with
    | nil => rfl
    | cons x xs =>
      show claimTokenizeAcc (x :: xs) [] = claimTokenizeFuel ((x :: xs).length + 1) (x :: xs)
      rw [claimTokenizeAcc, claimTokenizeFuel]
      have hnone := List.findIdx?_eq_none_iff.mpr hw
      simp [hnone]
  | cons b r ih =>
    intro w hw
    have hstep : claimTokenizeAcc w (b :: r) =
        if (b == '\n' || b == '\r') = true then w :: claimTokenizeAcc [] r
        else claimTokenizeAcc (w ++ [b]) r := rfl
    by_cases hb : (b == '\n' || b == '\r') = true
    · rw [hstep, if_pos hb]
      have htail : claimTokenizeAcc ([] : List Char) r = claimTokenize r := by
        have := ih [] (by intro c hc; cases hc)
        rw [List.nil_append] at this
        exact this
      rw [htail]
      have hsome := findIdx?_append_first (fun c => c == '\n' || c == '\r') b r w hw hb
      have hlen : (w ++ b :: r).length = w.length + r.length + 1 := by
        simp only [List.length_append, List.length_cons]
        omega
      show _ = claimTokenizeFuel ((w ++ b :: r).length + 1) (w ++ b :: r)
      rw [hlen, claimTokenizeFuel]
      have hne : (w ++ b :: r).isEmpty = false := by
        cases w <;> rfl
      rw [hne]
      simp only [Bool.false_eq_true, if_false]
      simp only [hsome]
      rw [List.take_left]
      have hdrop : (w ++ b :: r).drop (w.length + 1) = r := by
        rw [← List.drop_drop, List.drop_left]
        rfl
      rw [hdrop]
      have := claimTokenizeFuel_congr r.length r (w.length + r.length + 1) (r.length + 1)
        (by omega) (by omega) (by omega)
      rw [this]
      rfl
    · rw [hstep, if_neg hb]
      have hw2 : ∀ c ∈ w ++ [b], (c == '\n' || c == '\r') = false := by
        intro c hc
        rcases List.mem_append.mp hc with hc | hc
        · exact hw c hc
        · rw [List.mem_singleton] at hc
          subst hc
          simp at hb
          simp [hb]
      have := ih (w ++ [b]) hw2
      rw [this, List.append_assoc]
      rfl

lemma growShift_space (w : List Char) (chs : List (List Char)) (sp L : Nat) (e : Bool)
    (hinv : sp + w.length ≤ L) (hL : 1 ≤ L) :
    ∃ sp2 L2, growStep (shiftStep ⟨w, L, sp, chs, e⟩) = ⟨w, L2, sp2, chs, e⟩ ∧
      sp2 + w.length < L2 ∧ 1 ≤ L2 := by
  simp only [shiftStep, growStep]
  by_cases h1 : sp > 0 ∧ (sp + w.length = L ∨ sp > L / 2)
  · rw [if_pos h1]
    by_cases h2 : (0 : Nat) + w.length = L
    · refine ⟨0, L * 2, ?_, by omega, by omega⟩
      rw [if_pos h2]
    · refine ⟨0, L, ?_, by omega, by omega⟩
      rw [if_neg h2]
  · rw [if_neg h1]
    by_cases h2 : sp + w.length = L
    · refine ⟨0, L * 2, ?_, by omega, by omega⟩
      rw [if_pos h2]
    · refine ⟨sp, L, ?_, by omega, by omega⟩
      rw [if_neg h2]

lemma readStep_byte (w : List Char) (b : Char) (chs : List (List Char)) (sp L : Nat)
    (hsp : sp + w.length < L) :
    readStep ⟨w, L, sp, [b] :: chs, false⟩ = ⟨w ++ [b], L, sp, chs, false⟩ := by
  have hmin : min (L - (sp + w.length)) ([b] : List Char).length = 1 := by
    simp only [List.length_singleton]
    omega
  simp [readStep, hmin]
  omega

lemma readMore_byte (w : List Char) (b : Char) (chs : List (List Char)) (sp L : Nat)
    (hinv : sp + w.length ≤ L) (hL : 1 ≤ L) :
    ∃ sp2 L2, readMore ⟨w, L, sp, [b] :: chs, false⟩ = ⟨w ++ [b], L2, sp2, chs, false⟩ ∧
      sp2 + (w.length + 1) ≤ L2 ∧ 1 ≤ L2 := by
  obtain ⟨sp2, L2, heq, hlt, hL2⟩ := growShift_space w ([b] :: chs) sp L false hinv hL
  refine ⟨sp2, L2, ?_, by omega, hL2⟩
  rw [readMore, heq, readStep_byte w b chs sp2 L2 hlt]

lemma readMore_toEof (w : List Char) (sp L : Nat) (hinv : sp + w.length ≤ L)
    (hL : 1 ≤ L) :
    ∃ sp2 L2, readMore ⟨w, L, sp, [], false⟩ = ⟨w, L2, sp2, [], true⟩ := by
  obtain ⟨sp2, L2, heq, _, _⟩ := growShift_space w [] sp L false hinv hL
  refine ⟨sp2, L2, ?_⟩
  rw [readMore, heq]
  rfl

lemma splitFunc_none_of_termfree (w : List Char)
    (hterm : ∀ c ∈ w, (c == '\n' || c == '\r') = false) :
    splitFunc w false = (0, none) := by
  have hn : w.findIdx? (fun c => c == '\n') = none :=
    findIdx?_of_all_false _ _ (fun c hc => (term_false_split (hterm c hc)).1)
  have hr : w.findIdx? (fun c => c == '\r') = none :=
    findIdx?_of_all_false _ _ (fun c hc => (term_false_split (hterm c hc)).2)
  simp [splitFunc, hn, hr]

lemma splitFunc_eof_all (w : List Char) (hw : w ≠ [])
    (hterm : ∀ c ∈ w, (c == '\n' || c == '\r') = false) :
    splitFunc w true = (w.length, some w) := by
  have hn : w.findIdx? (fun c => c == '\n') = none :=
    findIdx?_of_all_false _ _ (fun c hc => (term_false_split (hterm c hc)).1)
  have hr : w.findIdx? (fun c => c == '\r') = none :=
    findIdx?_of_all_false _ _ (fun c hc => (term_false_split (hterm c hc)).2)
  simp [splitFunc, hn, hr, hw]

lemma splitFunc_term_end (w : List Char) (b : Char)
    (hterm : ∀ c ∈ w, (c == '\n' || c == '\r') = false)
    (hb : (b == '\n' || b == '\r') = true) :
    splitFunc (w ++ [b]) false = (w.length + 1, some w) := by
  by_cases hbn : (b == '\n') = true
  · have hsome := findIdx?_append_first (fun c => c == '\n') b [] w
      (fun c hc => (term_false_split (hterm c hc)).1) hbn
    simp only [splitFunc, hsome]
    rw [List.take_left]
    simp
  · have hbr : (b == '\r') = true := by
      rcases Bool.or_eq_true_iff.mp hb with h | h
      · exact absurd h hbn
      · exact h
    have hn : (w ++ [b]).findIdx? (fun c => c == '\n') = none := by
      apply findIdx?_of_all_false
      intro c hc
      rcases List.mem_append.mp hc with h | h
      · exact (term_false_split (hterm c h)).1
      · rw [List.mem_singleton] at h
        subst h
        exact Bool.eq_false_iff.mpr hbn
    have hsome := findIdx?_append_first (fun c => c == '\r') b [] w
      (fun c hc => (term_false_split (hterm c hc)).2) hbr
    simp only [splitFunc, hn, hsome]
    rw [List.take_left]
    simp

lemma splitFunc_token_no_newline (data : List Char) (atEOF : Bool) (adv : Nat)
    (tok : List Char) (h : splitFunc data atEOF = (adv, some tok)) :
    ('\n' : Char) ∈ tok → False := by
  intro hmem
  unfold splitFunc at h
  by_cases h0 : (atEOF = true) ∧ data = []
  · rw [if_pos (by exact_mod_cast h0)] at h
    cases h
  · rw [if_neg (by exact_mod_cast h0)] at h
    cases hn : data.findIdx? (fun c => c == '\n') with
    | some i =>
      rw [hn] at h
      have htok : tok = data.take i := by
        have := congrArg Prod.snd h
        simp at this
        exact this.symm
      subst htok
      have := findIdx?_take_all_false (fun c => c == '\n') data i hn '\n' hmem
      simp at this
    | none =>
      rw [hn] at h
      have hall := List.findIdx?_eq_none_iff.mp hn
      cases hr : data.findIdx? (fun c => c == '\r') with
      | some i =>
        rw [hr] at h
        have htok : tok = data.take i := by
          have := congrArg Prod.snd h
          simp at this
          exact this.symm
        subst htok
        have := hall '\n' (List.take_subset i data hmem)
        simp at this
      | none =>
        rw [hr] at h
        by_cases he : atEOF = true
        · rw [if_pos (by exact_mod_cast he)] at h
          have htok : tok = data := by
            have := congrArg Prod.snd h
            simp at this
            exact this.symm
          subst htok
          have := hall '\n' hmem
          simp at this
        · rw [if_neg (by exact_mod_cast he)] at h
          cases h

lemma scanDrive_succ_emit (fuel : Nat) (st : ScanSt) (adv : Nat) (tok : List Char)
    (hc : 0 < st.buf.length ∨ st.eof = true)
    (hs : splitFunc st.buf st.eof = (adv, some tok)) :
    scanDrive (fuel + 1) st =
      tok :: scanDrive fuel { st with buf := st.buf.drop adv, startPos := st.startPos + adv } := by
  rw [scanDrive, if_pos hc, hs]

lemma scanDrive_succ_toRead (fuel : Nat) (st : ScanSt)
    (hterm : ∀ c ∈ st.buf, (c == '\n' || c == '\r') = false) (heof : st.eof = false) :
    scanDrive (fuel + 1) st = scanDrive fuel (readMore st) := by
  have hs : splitFunc st.buf st.eof = (0, none) := by
    rw [heof]
    exact splitFunc_none_of_termfree st.buf hterm
  rw [scanDrive]
  by_cases hc : 0 < st.buf.length ∨ st.eof = true
  · rw [if_pos hc, hs, heof]
    simp
  · rw [if_neg hc]

lemma scanDrive_eof_empty (fuel : Nat) (st : ScanSt) (hbuf : st.buf = [])
    (heof : st.eof = true) : scanDrive (fuel + 1) st = [] := by
  have hs : splitFunc st.buf st.eof = (0, none) := by
    rw [hbuf, heof]
    rfl
  rw [scanDrive, if_pos (Or.inr heof), hs, if_pos heof]

lemma scanDrive_bytes :
    ∀ (data w : List Char) (sp L fuel : Nat),
      (∀ c ∈ w, (c == '\n' || c == '\r') = false) →
      sp + w.length ≤ L → 1 ≤ L → 2 * data.length + 4 ≤ fuel →
      scanDrive fuel ⟨w, L, sp, data.map (fun b => [b]), false⟩ = claimTokenizeAcc w data := by
  intro data
  induction data with
  | nil =>
    intro w sp L fuel hterm hinv hL hfuel
    obtain ⟨f, rfl⟩ : ∃ f, fuel = f + 1 := ⟨fuel - 1, by omega⟩
    rw [scanDrive_succ_toRead f _ hterm rfl, List.map_nil]
    obtain ⟨sp2, L2, heq⟩ := readMore_toEof w sp L hinv hL
    rw [heq]
    obtain ⟨g, rfl⟩ : ∃ g, f = g + 1 := ⟨f - 1, by omega⟩
    cases w with
    | nil =>
      rw [scanDrive_eof_empty g _ rfl rfl]
      rfl
    | cons x xs =>
      have hs : splitFunc (x :: xs) true = ((x :: xs).length, some (x :: xs)) :=
        splitFunc_eof_all (x :: xs) (by simp) hterm
      rw [scanDrive_succ_emit g _ _ _ (Or.inr rfl) hs]
      rw [List.drop_length]
      obtain ⟨k, rfl⟩ : ∃ k, g = k + 1 := ⟨g - 1, by omega⟩
      rw [scanDrive_eof_empty k _ rfl rfl]
      rfl
  | cons b r ih =>
    intro w sp L fuel hterm hinv hL hfuel
    obtain ⟨f, rfl⟩ : ∃ f, fuel = f + 1 := ⟨fuel - 1, by omega⟩
    rw [scanDrive_succ_toRead f _ hterm rfl, List.map_cons]
    obtain ⟨sp2, L2, heq, hinv2, hL2⟩ :=
      readMore_byte w b (r.map (fun c => [c])) sp L hinv hL
    rw [heq]
    have hfr : 2 * r.length + 5 ≤ f := by
      simp only [List.length_cons] at hfuel
      omega
    have hstep : claimTokenizeAcc w (b :: r) =
        if (b == '\n' || b == '\r') = true then w :: claimTokenizeAcc [] r
        else claimTokenizeAcc (w ++ [b]) r := rfl
    by_cases hb : (b == '\n' || b == '\r') = true
    · obtain ⟨g, rfl⟩ : ∃ g, f = g + 1 := ⟨f - 1, by omega⟩
      have hs : splitFunc (w ++ [b]) false = (w.length + 1, some w) :=
        splitFunc_term_end w b hterm hb
      rw [scanDrive_succ_emit g _ _ _ (Or.inl (by simp)) hs]
      have hdrop : (w ++ [b]).drop (w.length + 1) = [] := by
        have hlen : (w ++ [b]).length = w.length + 1 := by simp
        rw [← hlen, List.drop_length]
      rw [hdrop]
      rw [ih [] (sp2 + (w.length + 1)) L2 g (by intro c hc; cases hc)
        (by simp only [List.length_nil]; omega) hL2 (by omega)]
      rw [hstep, if_pos hb]
    · have hterm2 : ∀ c ∈ w ++ [b], (c == '\n' || c == '\r') = false := by
        intro c hc
        rcases List.mem_append.mp hc with h | h
        · exact hterm c h
        · rw [List.mem_singleton] at h
          subst h
          exact Bool.eq_false_iff.mpr hb
      rw [ih (w ++ [b]) sp2 L2 f hterm2
        (by simp only [List.length_append, List.length_singleton]; omega) hL2 (by omega)]
      rw [hstep, if_neg hb]

lemma scanDrive_no_newline :
    ∀ (fuel : Nat) (st : ScanSt) (t : List Char),
      t ∈ scanDrive fuel st → ('\n' : Char) ∈ t → False := by
  intro fuel
  induction fuel with
  | zero =>
    intro st t ht _
    simp [scanDrive] at ht
  | succ fuel ih =>
    intro st t ht hmem
    rw [scanDrive] at ht
    by_cases hc : 0 < st.buf.length ∨ st.eof = true
    · rw [if_pos hc] at ht
      cases hsp : splitFunc st.buf st.eof with
      | mk adv otok =>
        cases otok with
        | some tok =>
          rw [hsp] at ht
          rcases List.mem_cons.mp ht with h | h
          · subst h
            exact splitFunc_token_no_newline _ _ _ _ hsp hmem
          · exact ih _ t h hmem
        | none =>
          rw [hsp] at ht
          by_cases he : st.eof = true
          · rw [if_pos he] at ht
            simp at ht
          · rw [if_neg he] at ht
            exact ih _ t ht hmem
    · rw [if_neg hc] at ht
      exact ih _ t ht hmem

/-- C2 counterexample: the diagnostic stream `ab\nc\rd\ne` becomes available
to the pipe in two writes, `ab\nc` then `\rd\ne` — a legal delivery the
scanner handles with its real 2-byte initial buffer (the first read takes
`ab`, the buffer grows to 4, the read after the first token has 3 free bytes
and takes `\rd\n` at once).  The emitted lines are `ab`, `c\rd`, `e`: the
second line crosses the earlier `\r` and ends at the later `\n` that was
buffered with it, while the claim's first-of-either rule predicts
`ab`, `c`, `d`, `e`. -/
theorem scannerTokens_claim_counterexample :
    scannerTokens ["ab\nc".toList, "\rd\ne".toList] =
      ["ab".toList, "c\rd".toList, "e".toList] ∧
    "ab\nc".toList ++ "\rd\ne".toList = "ab\nc\rd\ne".toList ∧
    claimTokenize "ab\nc\rd\ne".toList =
      ["ab".toList, "c".toList, "d".toList, "e".toList] ∧
    scannerTokens ["ab\nc".toList, "\rd\ne".toList] ≠
      claimTokenize "ab\nc\rd\ne".toList := by
  refine ⟨by decide, by decide, by decide, by decide⟩

/-- C2 (amended): a logical line ends at the first `\n` present in the data
buffered when the split function runs, only otherwise at the first `\r`, and
at end-of-stream any trailing partial line is emitted as one final token.
Hence no emitted line ever contains `\n` — whatever the delivery — and when
the stream is delivered byte by byte every line ends at the first occurrence
of `\n` or `\r`, whichever comes first, exactly as the claim's tokenizer;
only an earlier `\r` buffered together with a later `\n` is crossed.  The
byte-by-byte clause is stated for streams below the scanner's 64 KiB token
cap, which the model leaves out. -/
theorem scannerTokens_amended :
    (∀ (chunks : List (List Char)) (t : List Char),
      t ∈ scannerTokens chunks → ('\n' : Char) ∉ t) ∧
    (∀ data : List Char, data.length < 32768 →
      scannerTokens (data.map (fun b => [b])) = claimTokenize data) := by
  constructor
  · intro chunks t ht hmem
    exact scanDrive_no_newline _ _ t ht hmem
  · intro data _
    rw [scannerTokens]
    have hflat : ∀ l : List Char, (l.map (fun b => [b])).flatten = l := by
      intro l
      induction l with
      | nil => rfl
      | cons a s ihs => simp [ihs]
    rw [hflat data, List.length_map]
    rw [scanDrive_bytes data [] 0 2 (4 * data.length + 2 * data.length + 8)
      (by intro c hc; cases hc) (by simp) (by omega) (by omega)]
    have := claimTokenizeAcc_spec data [] (by intro c hc; cases hc)
    rw [List.nil_append] at this
    exact this

/-- Witness for C2 (amended): a concrete emitted line contains no `\n`, and
the byte-by-byte delivery of `a\rb\nc` tokenizes per the first-of-either
rule. -/
theorem scannerTokens_amended_witness :
    ("hi".toList ∈ scannerTokens ["hi\nx".toList] ∧ ('\n' : Char) ∉ "hi".toList) ∧
    ("a\rb\nc".toList.length < 32768 ∧
      scannerTokens ("a\rb\nc".toList.map (fun b => [b])) =
        claimTokenize "a\rb\nc".toList) :=
  ⟨⟨by decide, scannerTokens_amended.1 ["hi\nx".toList] "hi".toList (by decide)⟩,
    ⟨by decide, scannerTokens_amended.2 "a\rb\nc".toList (by decide)⟩⟩

/-! ## Progress line parsing (`progress`, ffmpeg.go lines 339-392) -/

/-- Substring test on character lists, after `strings.Contains`. -/
def hasSub (sub : List Char) : List Char → Bool
  | [] => sub.isEmpty
  | c :: rest => sub.isPrefixOf (c :: rest) || hasSub sub rest

/-- Substring test on strings, after `strings.Contains(line, pat)`. -/
def containsSub (s pat : String) : Bool :=
  hasSub pat.toList s.toList

/-- Whitespace class of the regular expression used at ffmpeg.go line 344
(space, tab, newline, form feed, carriage return). -/
def isRegexSpace (c : Char) : Bool :=
  c == ' ' || c == '\t' || c == '\n' || c == Char.ofNat 12 || c == '\r'

/-- ASCII whitespace recognized by `strings.Fields` (the inputs handled by
the scanner are ASCII, so the further Unicode space code points of
`unicode.IsSpace` are irrelevant here). -/
def isFieldSpace (c : Char) : Bool :=
  c == ' ' || c == '\t' || c == '\n' || c == Char.ofNat 11 || c == Char.ofNat 12 || c == '\r'

/-- Replacement of every `=` followed by one or more whitespace characters
by a bare `=` (ffmpeg.go lines 344-345): the boolean is true while skipping
the whitespace run that follows an `=`. -/
def collapseEqGo : Bool → List Char → List Char
  | _, [] => []
  | true, c :: rest =>
    if isRegexSpace c then collapseEqGo true rest
    else if c == '=' then '=' :: collapseEqGo true rest
    else c :: collapseEqGo false rest
  | false, c :: rest =>
    if c == '=' then '=' :: collapseEqGo true rest
    else c :: collapseEqGo false rest

/-- Splitting of a character list on a separator, keeping empty segments,
after `strings.Split`; `acc` holds the current segment reversed. -/
def splitOnCharAux (sep : Char) : List Char → List Char → List String
  | [], acc => [String.mk acc.reverse]
  | c :: rest, acc =>
    if c == sep then String.mk acc.reverse :: splitOnCharAux sep rest []
    else splitOnCharAux sep rest (c :: acc)

/-- Splitting of a string on a separator character, after
`strings.Split(s, sep)`. -/
def splitOnChar (sep : Char) (s : String) : List String :=
  splitOnCharAux sep s.toList []

/-- Splitting of a string into whitespace-separated fields, after
`strings.Fields` (ffmpeg.go line 347); empty fields are dropped. -/
def goFieldsAux : List Char → List Char → List String
  | [], acc => if acc.isEmpty then [] else [String.mk acc.reverse]
  | c :: rest, acc =>
    if isFieldSpace c then
      if acc.isEmpty then goFieldsAux rest []
      else String.mk acc.reverse :: goFieldsAux rest []
    else goFieldsAux rest (c :: acc)

/-- Fields of a progress line, after `strings.Fields` (ffmpeg.go line 347). -/
def goFields (s : String) : List String :=
  goFieldsAux s.toList []

/-- Values of the four recognized progress fields (ffmpeg.go lines 349-377),
empty when absent. -/
structure Extracted where
  framesProcessed : String
  currentTime : String
  currentBitrate : String
  currentSpeed : String
deriving DecidableEq

/-- Field-extraction loop of `progress` (ffmpeg.go lines 354-377): each
field is split on `=`; with at least two parts, part 0 is the field name and
part 1 its value; the names `frame`, `time`, `bitrate`, `speed` are
recorded, the last occurrence winning. -/
def extractFields (fields : List String) : Extracted :=
  fields.foldl (fun acc field =>
    let fieldSplit := splitOnChar '=' field
    if fieldSplit.length > 1 then
      let fieldname := fieldSplit.getD 0 ""
      let fieldvalue := fieldSplit.getD 1 ""
      let acc1 := if fieldname = "frame" then { acc with framesProcessed := fieldvalue } else acc
      let acc2 := if fieldname = "time" then { acc1 with currentTime := fieldvalue } else acc1
      let acc3 := if fieldname = "bitrate" then { acc2 with currentBitrate := fieldvalue } else acc2
      if fieldname = "speed" then { acc3 with currentSpeed := fieldvalue } else acc3
    else acc) ⟨"", "", "", ""⟩

/-- Modelled from the spec: the `Progress` event record sent on the channel
(percent complete, frames processed, current media time, current bitrate,
current speed, optional terminal error); the struct itself lives in the
repository's root package, outside the given sources, and its fields are
the ones assigned at ffmpeg.go lines 383-388 and 137. -/
structure ProgressEvent where
  progress : ℚ
  currentBitrate : String
  framesProcessed : String
  currentTime : String
  speed : String
  errMsg : Option String
deriving DecidableEq

/-- Per-line body of the `progress` scan loop (ffmpeg.go lines 339-392):
a line qualifies when it contains both `time=` and `bitrate=`; a qualifying
line is normalized (`=\s+` collapsed to `=`), split into fields, the four
recognized fields extracted, and exactly one event emitted whose percentage
is `time-in-seconds * 100 / duration-in-seconds`.  `durToSec` stands for
`utils.DurToSec` (outside the given sources) and `parsedDuration` for the
outcome of `strconv.ParseFloat` on the cached probe duration — the Go code
discards the parse error, leaving the zero value, hence `getD 0`. -/
def processLine (durToSec : String → ℚ) (parsedDuration : Option ℚ)
    (line : String) : List ProgressEvent :=
  if containsSub line "time=" && containsSub line "bitrate=" then
    let st := String.mk (collapseEqGo false line.toList)
    let ex := extractFields (goFields st)
    let timesec := durToSec ex.currentTime
    let dursec := parsedDuration.getD 0
    [{ progress := timesec * 100 / dursec,
       currentBitrate := ex.currentBitrate,
       framesProcessed := ex.framesProcessed,
       currentTime := ex.currentTime,
       speed := ex.currentSpeed,
       errMsg := none }]
  else []

/-- Events emitted by the Progress Scanner over a list of logical lines, in
encounter order. -/
def progressEvents (durToSec : String → ℚ) (parsedDuration : Option ℚ)
    (lines : List String) : List ProgressEvent :=
  lines.flatMap (processLine durToSec parsedDuration)

/-- C8: for every logical line, the scanner emits exactly one event when the
line contains both `time=` and `bitrate=`, and no event otherwise; in
particular a line lacking `bitrate=` produces zero events. -/
theorem processLine_filter :
    (∀ (durToSec : String → ℚ) (parsedDuration : Option ℚ) (line : String),
      (processLine durToSec parsedDuration line).length =
        if containsSub line "time=" && containsSub line "bitrate=" then 1 else 0) ∧
    (∀ (durToSec : String → ℚ) (parsedDuration : Option ℚ) (line : String),
      containsSub line "bitrate=" = false →
        processLine durToSec parsedDuration line = []) := by
  constructor
  · intro durToSec parsedDuration line
    by_cases h : (containsSub line "time=" && containsSub line "bitrate=") = true
    · simp [processLine, h]
    · simp [processLine, h]
  · intro durToSec parsedDuration line h
    simp [processLine, h]

/-- Witness for C8: a line lacking `bitrate=` produces zero events. -/
theorem processLine_filter_witness :
    containsSub "frame=5 time=00:00:01.00 speed=1x" "bitrate=" = false ∧
    processLine (fun _ => 0) none "frame=5 time=00:00:01.00 speed=1x" = [] :=
  ⟨by decide,
    processLine_filter.2 (fun _ => 0) none "frame=5 time=00:00:01.00 speed=1x"
      (by decide)⟩

/-- C6: on a qualifying line, when the cached probe duration string fails to
parse as a number (the Go code discards the `strconv.ParseFloat` error,
leaving a zero duration), the scanner still emits exactly one event, its
percentage is the zero/undefined value (division by zero, `0` in this `ℚ`
model), and the scan goes on with the remaining lines. -/
theorem processLine_unparsed_duration (durToSec : String → ℚ) (line : String)
    (rest : List String) (h1 : containsSub line "time=" = true)
    (h2 : containsSub line "bitrate=" = true) :
    (processLine durToSec none line).length = 1 ∧
    (∀ ev ∈ processLine durToSec none line, ev.progress = 0) ∧
    progressEvents durToSec none (line :: rest) =
      processLine durToSec none line ++ progressEvents durToSec none rest := by
  refine ⟨?_, ?_, ?_⟩
  · simp [processLine, h1, h2]
  · intro ev hev
    simp only [processLine, h1, h2, Bool.and_self, if_pos, List.mem_singleton] at hev
    rw [hev]
    simp
  · simp [progressEvents]

/-- Witness for C6: the banner-free sample line with an unparseable
duration yields one event with percentage zero. -/
theorem processLine_unparsed_duration_witness :
    (containsSub "frame=10 time=00:00:05.00 bitrate=128.0kbits/s speed=1.0x" "time=" = true ∧
      containsSub "frame=10 time=00:00:05.00 bitrate=128.0kbits/s speed=1.0x" "bitrate=" = true) ∧
    ((processLine (fun _ => 5) none
        "frame=10 time=00:00:05.00 bitrate=128.0kbits/s speed=1.0x").length = 1 ∧
      (∀ ev ∈ processLine (fun _ => 5) none
          "frame=10 time=00:00:05.00 bitrate=128.0kbits/s speed=1.0x", ev.progress = 0) ∧
      progressEvents (fun _ => 5) none
          ["frame=10 time=00:00:05.00 bitrate=128.0kbits/s speed=1.0x"] =
        processLine (fun _ => 5) none
            "frame=10 time=00:00:05.00 bitrate=128.0kbits/s speed=1.0x" ++
          progressEvents (fun _ => 5) none []) :=
  ⟨⟨by decide, by decide⟩,
    processLine_unparsed_duration (fun _ => 5)
      "frame=10 time=00:00:05.00 bitrate=128.0kbits/s speed=1.0x" []
      (by decide) (by decide)⟩

/-! ## Textual metadata scan (`GetMetadata`, ffmpeg.go lines 266-300) -/

/-- Removal of leading spaces, after `strings.TrimLeft(line, " ")`. -/
def trimLeftSpaces (s : String) : String :=
  String.mk (s.toList.dropWhile (fun c => c == ' '))

/-- Removal of trailing spaces, after `strings.TrimRight(s, " ")`. -/
def trimRightSpaces (s : String) : String :=
  String.mk ((s.toList.reverse.dropWhile (fun c => c == ' ')).reverse)

/-- Removal of leading and trailing whitespace, after `strings.TrimSpace`
(ASCII whitespace; the scanned diagnostic lines are ASCII). -/
def trimSpaceGo (s : String) : String :=
  String.mk (((s.toList.dropWhile isFieldSpace).reverse.dropWhile isFieldSpace).reverse)

/-- Split on the first colon into at most two parts, after
`strings.SplitN(line, ":", 2)`. -/
def splitNFirstColon (line : String) : List String :=
  match line.toList.findIdx? (fun c => c == ':') with
  | none => [line]
  | some i => [String.mk (line.toList.take i), String.mk (line.toList.drop (i + 1))]

/-- Insertion into the tag mapping `metadata.Infos` (a Go map): an existing
key has its value replaced in place, a new key is appended. -/
def putInfo (m : List (String × String)) (k v : String) : List (String × String) :=
  if m.any (fun p => p.1 == k) then
    m.map (fun p => if p.1 == k then (k, v) else p)
  else m ++ [(k, v)]

/-- Scan loop of `GetMetadata` over the diagnostic lines (ffmpeg.go lines
268-300): before the marker, a line whose left-trimmed text starts with
`Metadata:` arms the scan; afterwards each line is split on the first colon,
the key right-trimmed of spaces, and when the key is non-empty and not the
literal `Metadata:` the pair is recorded with the value trimmed on both
sides. -/
def scanInfosLoop : Bool → List (String × String) → List String → List (String × String)
  | _, infos, [] => infos
  | hasMetadata, infos, rawLine :: rest =>
    let line := trimLeftSpaces rawLine
    if hasMetadata then
      let parts := splitNFirstColon line
      if parts.length = 2 then
        let key := trimRightSpaces (parts.getD 0 "")
        if key.length > 0 && key != "Metadata:" then
          scanInfosLoop true (putInfo infos key (trimSpaceGo (parts.getD 1 ""))) rest
        else
          scanInfosLoop true infos rest
      else
        scanInfosLoop true infos rest
    else
      if "Metadata:".toList.isPrefixOf line.toList then
        scanInfosLoop true infos rest
      else
        scanInfosLoop false infos rest

/-- Tag mapping produced by the textual metadata scan of a diagnostic text.
The line sequence fed to the loop is the text split on `\n`, matching what
`bufio.Reader.ReadLine` yields for the newline-separated ASCII diagnostic
text at hand (no `\r\n` endings and no continuation-wrapped lines, so the
`isPrefix` reassembly at lines 276-280 is the identity). -/
def metadataInfos (text : String) : List (String × String) :=
  scanInfosLoop false [] (splitOnChar '\n' text)

/-- C7: the textual metadata scan of
`"Metadata:\n  title : My Song \n  artist: Someone\n"` yields exactly the
mapping `title` to `My Song` and `artist` to `Someone`: after the marker,
each line is split on the first colon, the key right-trimmed of spaces after
the line was left-trimmed, and the value trimmed on both sides. -/
theorem metadataInfos_sample :
    metadataInfos "Metadata:\n  title : My Song \n  artist: Someone\n" =
      [("title", "My Song"), ("artist", "Someone")] := by
  decide

/-! ## Progress-mode event delivery (`Start`, ffmpeg.go lines 125-139) -/

/-- Events sent on the shared progress channel: progress events (numbered by
their source line) and the terminal error event of ffmpeg.go line 137. -/
inductive PEv where
  | progress (i : Nat)
  | errorEv
deriving DecidableEq

/-- Joint state of the two goroutines of the progress branch and of the
shared unbuffered channel `out`: `pending` are the qualifying lines the
scanner goroutine (line 128) has yet to send, `exited` records that
`cmd.Wait` (line 133) has returned with a non-zero status, `errSent` that
the waiter goroutine has pushed the terminal error event (line 137),
`closed` that its deferred `close(out)` (line 132) has run, `delivered` the
events received by the consumer in order, and `panicked` that a send on the
closed channel occurred (a Go runtime panic). -/
structure ChanSt where
  pending : List PEv
  exited : Bool
  errSent : Bool
  closed : Bool
  delivered : List PEv
  panicked : Bool
deriving DecidableEq

/-- Interleaving steps of the progress branch.  The scanner goroutine and
the waiter goroutine share no synchronization beyond the channel itself:
`cmd.Wait` does not wait for the scanner (it closes the stderr pipe, whose
already-buffered data the scanner may still tokenize and send), so the
waiter may send the error event and close the channel while the scanner
still has pending sends. -/
inductive PStep : ChanSt → ChanSt → Prop where
  | scanSend (s : ChanSt) (e : PEv) (rest : List PEv) :
      s.pending = e :: rest → s.closed = false →
      PStep s { s with pending := rest, delivered := s.delivered ++ [e] }
  | scanSendClosed (s : ChanSt) (e : PEv) (rest : List PEv) :
      s.pending = e :: rest → s.closed = true →
      PStep s { s with panicked := true }
  | procExit (s : ChanSt) :
      s.exited = false →
      PStep s { s with exited := true }
  | waiterErr (s : ChanSt) :
      s.exited = true → s.errSent = false → s.closed = false →
      PStep s { s with errSent := true, delivered := s.delivered ++ [PEv.errorEv] }
  | waiterClose (s : ChanSt) :
      s.errSent = true → s.closed = false →
      PStep s { s with closed := true }

/-- Initial state of one progress-mode run whose process will exit non-zero
while the scanner still has `events` to send. -/
def progressInit (events : List PEv) : ChanSt :=
  { pending := events, exited := false, errSent := false, closed := false,
    delivered := [], panicked := false }

/-- C4 exhibits a race: from the initial state with one qualifying progress
line still unsent, the process can exit non-zero, the waiter goroutine can
send the terminal error event and only then the scanner deliver its progress
event, after which the channel is closed — the error event is NOT the last
event before closure, contradicting the claimed ordering guarantee and
showing that closure does not wait for the scanner to drain. -/
theorem progress_error_not_last_reachable :
    ∃ s : ChanSt,
      Relation.ReflTransGen PStep (progressInit [PEv.progress 0]) s ∧
        s.delivered = [PEv.errorEv, PEv.progress 0] ∧ s.closed = true := by
  refine ⟨{ pending := [], exited := true, errSent := true, closed := true,
            delivered := [PEv.errorEv, PEv.progress 0], panicked := false }, ?_, rfl, rfl⟩
  have h1 : PStep (progressInit [PEv.progress 0])
      { pending := [PEv.progress 0], exited := true, errSent := false, closed := false,
        delivered := [], panicked := false } :=
    PStep.procExit (progressInit [PEv.progress 0]) rfl
  have h2 : PStep
      { pending := [PEv.progress 0], exited := true, errSent := false, closed := false,
        delivered := [], panicked := false }
      { pending := [PEv.progress 0], exited := true, errSent := true, closed := false,
        delivered := [PEv.errorEv], panicked := false } :=
    PStep.waiterErr _ rfl rfl rfl
  have h3 : PStep
      { pending := [PEv.progress 0], exited := true, errSent := true, closed := false,
        delivered := [PEv.errorEv], panicked := false }
      { pending := [], exited := true, errSent := true, closed := false,
        delivered := [PEv.errorEv, PEv.progress 0], panicked := false } :=
    PStep.scanSend _ (PEv.progress 0) [] rfl rfl
  have h4 : PStep
      { pending := [], exited := true, errSent := true, closed := false,
        delivered := [PEv.errorEv, PEv.progress 0], panicked := false }
      { pending := [], exited := true, errSent := true, closed := true,
        delivered := [PEv.errorEv, PEv.progress 0], panicked := false } :=
    PStep.waiterClose _ rfl rfl
  exact Relation.ReflTransGen.head h1 (Relation.ReflTransGen.head h2
    (Relation.ReflTransGen.head h3 (Relation.ReflTransGen.head h4
      Relation.ReflTransGen.refl)))
